import Mathlib

/-!
Verification development for the EEX Commitment-of-Traders ingestion and
storage system.  The definitions below are a shallow embedding of the
Python sources `eex_storage.py` and `eex_parser.py`:

* a pandas `DataFrame` of observation rows is embedded as a `List Obs`;
* `sort_values('report_date', ascending=False)` is embedded as a stable
  descending sort (`sortDesc`): pandas computes the descending argsort by
  reversing the array, arg-sorting, and reversing the result, which keeps
  rows with equal keys in their original relative order;
* `drop_duplicates(subset=['report_date','category','position_type'],
  keep='first')` is embedded as `dedupFirst`, which keeps the first row of
  each key in the current row order;
* Python floats are embedded as exact rationals (`ℚ`); every IEEE double
  is a dyadic rational, so this domain contains all values the code can
  produce.
-/

/-- The five fixed participant categories of `EEXCoTParser.CATEGORIES`. -/
inductive Category where
  | investment_firms
  | investment_funds
  | other_financial
  | commercial
  | compliance_operators
  deriving DecidableEq, Repr

/-- The three position types produced by `EEXCoTParser.parse_positions`
(rows 11-13 of the grid). -/
inductive PosType where
  | risk_reducing
  | other
  | total
  deriving DecidableEq, Repr

/-- One row of the stored per-contract DataFrame: the twelve columns of
the frame built by `EEXCoTParser.parse_positions` and persisted by
`EEXDataStorage`.  `report_date` is the timestamp scalar produced by
`pd.to_datetime` (a totally ordered value, embedded as `ℕ`). -/
structure Obs where
  report_date : ℕ
  contract_code : String
  category : Category
  position_type : PosType
  long : ℚ
  short : ℚ
  net : ℚ
  long_change : ℚ
  short_change : ℚ
  net_change : ℚ
  long_pct : ℚ
  short_pct : ℚ
  deriving DecidableEq, Repr

/-- The deduplication key of `EEXDataStorage.append_data`:
`subset=['report_date', 'category', 'position_type']`. -/
def Obs.key (o : Obs) : ℕ × Category × PosType :=
  (o.report_date, o.category, o.position_type)

theorem Obs.key_report_date {x y : Obs} (h : x.key = y.key) :
    x.report_date = y.report_date := congrArg Prod.fst h

/-- Stable insertion (descending by `report_date`): the inserted row is
placed before the first stored row whose date is `≤` its own, so rows
with equal dates keep their original relative order. -/
def insertDesc (o : Obs) : List Obs → List Obs
  | [] => [o]
  | x :: xs => if x.report_date ≤ o.report_date then o :: x :: xs else x :: insertDesc o xs

/-- Embedding of `combined_df.sort_values('report_date', ascending=False)`:
a stable descending sort by `report_date`. -/
def sortDesc : List Obs → List Obs
  | [] => []
  | x :: xs => insertDesc x (sortDesc xs)

/-- Embedding of `drop_duplicates(subset=['report_date', 'category',
'position_type'], keep='first')`: keep the first row of every key, in the
current row order. -/
def dedupFirst : List Obs → List Obs
  | [] => []
  | o :: rest => o :: dedupFirst (rest.filter (fun x => x.key ≠ o.key))
termination_by l => l.length
decreasing_by
  simp only [List.length_cons]
  exact Nat.lt_succ_of_le (List.length_filter_le _ _)

/-- Embedding of `EEXDataStorage.append_data` (eex_storage.py lines
69-105).  `existing` is the result of `load_history` (`none` when no file
exists).  The returned list is the DataFrame handed to `save_history`,
i.e. the series persisted by the call:

* no existing data: the new frame is saved unchanged (lines 86-89);
* otherwise concatenate existing and new (line 92), optionally sort
  descending and drop duplicate keys keeping the first row (lines 94-100),
  and sort descending again (line 103). -/
def append_data (existing : Option (List Obs)) (new_df : List Obs)
    (deduplicate : Bool) : List Obs :=
  match existing with
  | none => new_df
  | some existing_df =>
    let combined_df := existing_df ++ new_df
    let combined_df :=
      if deduplicate then dedupFirst (sortDesc combined_df) else combined_df
    sortDesc combined_df

/-- The storage ordering invariant: rows sorted by `report_date`
descending. -/
def SortedDesc (l : List Obs) : Prop :=
  l.Pairwise (fun a b => b.report_date ≤ a.report_date)

theorem insertDesc_perm (o : Obs) (l : List Obs) : List.Perm (insertDesc o l) (o :: l) := by
  induction l with
  | nil => exact List.Perm.refl _
  | cons x xs ih =>
    simp only [insertDesc]
    split
    · exact List.Perm.refl _
    · exact (ih.cons x).trans (List.Perm.swap o x xs)

theorem sortDesc_perm (l : List Obs) : List.Perm (sortDesc l) l := by
  induction l with
  | nil => exact List.Perm.refl _
  | cons x xs ih => exact (insertDesc_perm x (sortDesc xs)).trans (ih.cons x)

theorem mem_sortDesc {a : Obs} {l : List Obs} : a ∈ sortDesc l ↔ a ∈ l :=
  (sortDesc_perm l).mem_iff

theorem sortedDesc_insertDesc {o : Obs} {l : List Obs} (h : SortedDesc l) :
    SortedDesc (insertDesc o l) := by
  induction l with
  | nil => simp [insertDesc, SortedDesc]
  | cons x xs ih =>
    simp only [insertDesc]
    split
    · rename_i hle
      refine List.Pairwise.cons ?_ h
      intro b hb
      rcases List.mem_cons.mp hb with rfl | hb
      · exact hle
      · exact le_trans (List.rel_of_pairwise_cons h hb) hle
    · rename_i hgt
      have hlt : o.report_date ≤ x.report_date := le_of_lt (lt_of_not_le hgt)
      refine List.Pairwise.cons ?_ (ih h.of_cons)
      intro b hb
      rcases List.mem_cons.mp ((insertDesc_perm o xs).mem_iff.mp hb) with rfl | hb
      · exact hlt
      · exact List.rel_of_pairwise_cons h hb

theorem sortedDesc_sortDesc (l : List Obs) : SortedDesc (sortDesc l) := by
  induction l with
  | nil => simp [sortDesc, SortedDesc]
  | cons x xs ih => exact sortedDesc_insertDesc ih

/-- A stable sort leaves an already-sorted list unchanged. -/
theorem sortDesc_eq_self {l : List Obs} (h : SortedDesc l) : sortDesc l = l := by
  induction l with
  | nil => rfl
  | cons x xs ih =>
    have hxs : sortDesc xs = xs := ih h.of_cons
    simp only [sortDesc, hxs]
    cases xs with
    | nil => rfl
    | cons y ys =>
      simp only [insertDesc, if_pos (List.rel_of_pairwise_cons h (List.mem_cons_self y ys))]

theorem mem_dedupFirst : ∀ (l : List Obs) (a : Obs), a ∈ dedupFirst l → a ∈ l
  | [], a, h => by rw [dedupFirst] at h; exact absurd h (List.not_mem_nil a)
  | o :: rest, a, h => by
    rw [dedupFirst] at h
    rcases List.mem_cons.mp h with rfl | h
    · exact List.mem_cons_self _ _
    · exact List.mem_cons_of_mem _ (List.mem_of_mem_filter (mem_dedupFirst _ _ h))
termination_by l => l.length
decreasing_by
  simp only [List.length_cons]
  exact Nat.lt_succ_of_le (List.length_filter_le _ _)

/-- `drop_duplicates` leaves at most one row per key: the kept rows have
pairwise distinct keys. -/
theorem dedupFirst_pairwise_keys : ∀ (l : List Obs),
    (dedupFirst l).Pairwise (fun a b => a.key ≠ b.key)
  | [] => by simp [dedupFirst]
  | o :: rest => by
    rw [dedupFirst]
    refine List.Pairwise.cons ?_ (dedupFirst_pairwise_keys _)
    intro b hb
    have hbf := mem_dedupFirst _ _ hb
    have hne : b.key ≠ o.key := by simpa using List.of_mem_filter hbf
    exact hne.symm
termination_by l => l.length
decreasing_by
  simp only [List.length_cons]
  exact Nat.lt_succ_of_le (List.length_filter_le _ _)

/-- `drop_duplicates` keeps a row for every key present in the input. -/
theorem exists_key_dedupFirst : ∀ (l : List Obs) (a : Obs), a ∈ l →
    ∃ b ∈ dedupFirst l, b.key = a.key
  | [], a, h => absurd h (List.not_mem_nil a)
  | o :: rest, a, h => by
    rw [dedupFirst]
    by_cases hk : a.key = o.key
    · exact ⟨o, List.mem_cons_self _ _, hk.symm⟩
    · rcases List.mem_cons.mp h with rfl | h
      · exact absurd rfl hk
      · have ha : a ∈ rest.filter (fun x => x.key ≠ o.key) :=
          List.mem_filter.mpr ⟨h, decide_eq_true hk⟩
        obtain ⟨b, hb, hk'⟩ := exists_key_dedupFirst _ a ha
        exact ⟨b, List.mem_cons_of_mem _ hb, hk'⟩
termination_by l => l.length
decreasing_by
  simp only [List.length_cons]
  exact Nat.lt_succ_of_le (List.length_filter_le _ _)

/-- `drop_duplicates` is the identity on a frame whose keys are already
pairwise distinct. -/
theorem dedupFirst_eq_self : ∀ {l : List Obs},
    l.Pairwise (fun a b => a.key ≠ b.key) → dedupFirst l = l
  | [], _ => by rw [dedupFirst]
  | o :: rest, h => by
    rw [dedupFirst]
    have hf : rest.filter (fun x => x.key ≠ o.key) = rest := by
      refine List.filter_eq_self.mpr ?_
      intro a ha
      simpa using (List.rel_of_pairwise_cons h ha).symm
    rw [hf, dedupFirst_eq_self h.of_cons]
termination_by l => l.length
decreasing_by
  simp only [List.length_cons]
  omega

/-- Appending rows whose keys are all already present does not change the
result of `drop_duplicates(keep='first')`. -/
theorem dedupFirst_append_covered : ∀ (l1 l2 : List Obs),
    (∀ n ∈ l2, ∃ s ∈ l1, s.key = n.key) → dedupFirst (l1 ++ l2) = dedupFirst l1
  | [], l2, h => by
    cases l2 with
    | nil => rfl
    | cons n t =>
      obtain ⟨s, hs, _⟩ := h n (List.mem_cons_self _ _)
      exact absurd hs (List.not_mem_nil s)
  | o :: t, l2, h => by
    rw [List.cons_append, dedupFirst, dedupFirst, List.filter_append]
    congr 1
    refine dedupFirst_append_covered _ _ ?_
    intro n hn
    have hn2 : n ∈ l2 := List.mem_of_mem_filter hn
    have hkey : n.key ≠ o.key := by simpa using List.of_mem_filter hn
    obtain ⟨s, hs, hsk⟩ := h n hn2
    rcases List.mem_cons.mp hs with rfl | hs
    · exact absurd hsk.symm hkey
    · refine ⟨s, List.mem_filter.mpr ⟨hs, decide_eq_true ?_⟩, hsk⟩
      exact fun hko => hkey (hsk ▸ hko)
termination_by l1 l2 => l1.length + l2.length
decreasing_by
  simp only [List.length_cons]
  have h1 := List.length_filter_le (fun x => decide (x.key ≠ o.key)) t
  have h2 := List.length_filter_le (fun x => decide (x.key ≠ o.key)) l2
  omega

theorem insertDesc_eq_cons {o : Obs} {l : List Obs}
    (h : ∀ z ∈ l, z.report_date ≤ o.report_date) : insertDesc o l = o :: l := by
  cases l with
  | nil => rfl
  | cons y ys => simp only [insertDesc, if_pos (h y (List.mem_cons_self y ys))]

/-- Filtering commutes with stable insertion when the inserted row is
kept, provided the list is sorted (the insertion point is preserved). -/
theorem filter_insertDesc {p : Obs → Bool} {o : Obs} (hpo : p o = true) :
    ∀ {t : List Obs}, SortedDesc t →
      (insertDesc o t).filter p = insertDesc o (t.filter p)
  | [], _ => by simp [insertDesc, hpo]
  | y :: ys, h => by
    by_cases hc : y.report_date ≤ o.report_date
    · rw [insertDesc, if_pos hc, List.filter_cons, if_pos hpo]
      refine (insertDesc_eq_cons ?_).symm
      intro z hz
      rcases List.mem_cons.mp (List.mem_of_mem_filter hz) with rfl | hz'
      · exact hc
      · exact le_trans (List.rel_of_pairwise_cons h hz') hc
    · rw [insertDesc, if_neg hc, List.filter_cons, List.filter_cons]
      by_cases hy : p y = true
      · rw [if_pos hy, if_pos hy, insertDesc, if_neg hc,
          filter_insertDesc hpo h.of_cons]
      · rw [if_neg hy, if_neg hy]
        exact filter_insertDesc hpo h.of_cons

/-- Filtering out the inserted row undoes a stable insertion. -/
theorem filter_insertDesc_neg {p : Obs → Bool} {o : Obs} (hpo : p o = false) :
    ∀ (t : List Obs), (insertDesc o t).filter p = t.filter p
  | [] => by simp [insertDesc, hpo]
  | y :: ys => by
    rw [insertDesc]
    split
    · rw [List.filter_cons, if_neg (by simp [hpo])]
    · rw [List.filter_cons, List.filter_cons, filter_insertDesc_neg hpo ys]

/-- A stable sort commutes with filtering. -/
theorem filter_sortDesc (p : Obs → Bool) : ∀ (l : List Obs),
    (sortDesc l).filter p = sortDesc (l.filter p)
  | [] => rfl
  | x :: xs => by
    rw [sortDesc, List.filter_cons]
    by_cases hx : p x = true
    · rw [if_pos hx, filter_insertDesc hx (sortedDesc_sortDesc xs),
        filter_sortDesc p xs, sortDesc]
    · rw [if_neg hx, filter_insertDesc_neg (by simpa using hx),
        filter_sortDesc p xs]

/-- Inserting a row and then deduplicating keeps the inserted row: every
row sharing its key shares its `report_date`, so the stable insertion put
the new row in front of none of the earlier rows with that date. -/
theorem dedupFirst_insertDesc : ∀ (s : List Obs), SortedDesc s → ∀ (x : Obs),
    dedupFirst (insertDesc x s) =
      insertDesc x (dedupFirst (s.filter (fun y => y.key ≠ x.key)))
  | [], _, x => by
    rw [insertDesc, List.filter_nil, dedupFirst, dedupFirst, List.filter_nil,
      dedupFirst, insertDesc]
  | y :: t, h, x => by
    have hst : SortedDesc t := h.of_cons
    by_cases hc : y.report_date ≤ x.report_date
    · rw [insertDesc, if_pos hc, dedupFirst]
      refine (insertDesc_eq_cons ?_).symm
      intro z hz
      rcases List.mem_cons.mp (List.mem_of_mem_filter (mem_dedupFirst _ _ hz)) with
        rfl | hz'
      · exact hc
      · exact le_trans (List.rel_of_pairwise_cons h hz') hc
    · have hd : x.report_date < y.report_date := lt_of_not_le hc
      have hky : x.key ≠ y.key := fun hk => Nat.ne_of_lt hd (Obs.key_report_date hk)
      have hky' : y.key ≠ x.key := Ne.symm hky
      have hcomm :
          (t.filter (fun z => z.key ≠ y.key)).filter (fun z => z.key ≠ x.key) =
            (t.filter (fun z => z.key ≠ x.key)).filter (fun z => z.key ≠ y.key) := by
        simp only [List.filter_filter]
        exact List.filter_congr (fun a _ => by rw [Bool.and_comm])
      rw [insertDesc, if_neg hc, dedupFirst,
        filter_insertDesc (p := fun z => decide (z.key ≠ y.key)) (decide_eq_true hky) hst,
        dedupFirst_insertDesc _ (hst.filter _) x,
        List.filter_cons, if_pos (decide_eq_true hky'), dedupFirst,
        insertDesc, if_neg hc, hcomm]
termination_by s _ _ => s.length
decreasing_by
  simp only [List.length_cons]
  exact Nat.lt_succ_of_le (List.length_filter_le _ _)

/-- `drop_duplicates(keep='first')` commutes with the stable descending
sort by `report_date`: rows sharing a dedup key share a `report_date`, so
the stable sort leaves each key group in its original relative order and
the same representative survives either way. -/
theorem dedupFirst_sortDesc : ∀ (l : List Obs),
    dedupFirst (sortDesc l) = sortDesc (dedupFirst l)
  | [] => by rw [sortDesc, dedupFirst, sortDesc]
  | x :: xs => by
    rw [sortDesc, dedupFirst_insertDesc _ (sortedDesc_sortDesc xs) x,
      filter_sortDesc, dedupFirst_sortDesc (xs.filter _), dedupFirst, sortDesc]
termination_by l => l.length
decreasing_by
  simp only [List.length_cons]
  exact Nat.lt_succ_of_le (List.length_filter_le _ _)

/-! ### Concrete observations used as counterexample inputs -/

/-- A stored total/investment_funds observation for report week 2026-01-16. -/
def obs0116 : Obs :=
  { report_date := 20260116, contract_code := "DEBM",
    category := Category.investment_funds, position_type := PosType.total,
    long := 1000, short := 400, net := 600,
    long_change := 10, short_change := 5, net_change := 5,
    long_pct := 40, short_pct := 16 }

/-- A re-ingested correction for the same key as `obs0116` (same
report_date, category, position_type; different values). -/
def obs0116' : Obs :=
  { obs0116 with long := 1100, net := 700 }

/-- An observation for the later report week 2026-01-23 (distinct key). -/
def obs0123 : Obs :=
  { obs0116 with report_date := 20260123 }

/-- Decidability of the storage ordering invariant. -/
instance (l : List Obs) : Decidable (SortedDesc l) := by
  unfold SortedDesc
  infer_instance

/-- C1 (code_bug): appending an observation whose key collides with a
stored one does NOT overwrite the stored values.  `append_data`
concatenates `[existing, new]`, sorts by `report_date` descending --
stably, so the colliding rows (which share a `report_date`) keep the
existing row first -- and `drop_duplicates(keep='first')` then keeps the
stale existing row and drops the correction. -/
theorem append_data_keeps_stale_row :
    obs0116'.key = obs0116.key ∧ obs0116' ≠ obs0116 ∧
      append_data (some [obs0116]) [obs0116'] true = [obs0116] := by
  refine ⟨by decide, by decide, ?_⟩
  simp [append_data, sortDesc, insertDesc, dedupFirst, obs0116, obs0116', Obs.key]

/-- C2 counterexample: starting from an empty store, `append(c, obs);
append(c, obs)` differs from a single `append(c, obs)` when `obs`
contains two rows with the same key: the first append stores both rows
unchanged (the no-existing-data short circuit), the second append
deduplicates them away. -/
theorem append_data_not_idempotent_from_empty :
    append_data (some (append_data none [obs0116, obs0116'] true))
        [obs0116, obs0116'] true
      ≠ append_data none [obs0116, obs0116'] true := by
  simp [append_data, sortDesc, insertDesc, dedupFirst, obs0116, obs0116', Obs.key]

/-- C2 (amended): `append` is idempotent whenever a stored series already
exists for the contract: appending the same rows again loads the saved
series, and every re-appended row is dropped by deduplication in favour
of the already-stored row with its key. -/
theorem append_data_idempotent (ex new : List Obs) :
    append_data (some (append_data (some ex) new true)) new true
      = append_data (some ex) new true := by
  have hpipe : ∀ l : List Obs,
      sortDesc (dedupFirst (sortDesc l)) = sortDesc (dedupFirst l) := by
    intro l
    rw [dedupFirst_sortDesc, sortDesc_eq_self (sortedDesc_sortDesc _)]
  have h1 : append_data (some ex) new true = sortDesc (dedupFirst (ex ++ new)) :=
    hpipe (ex ++ new)
  have hcov : ∀ n ∈ new, ∃ s ∈ sortDesc (dedupFirst (ex ++ new)), s.key = n.key := by
    intro n hn
    obtain ⟨b, hb, hk⟩ :=
      exists_key_dedupFirst (ex ++ new) n (List.mem_append_right ex hn)
    exact ⟨b, mem_sortDesc.mpr hb, hk⟩
  calc append_data (some (append_data (some ex) new true)) new true
      = sortDesc (dedupFirst (sortDesc (dedupFirst (ex ++ new)) ++ new)) := by
        rw [h1]; exact hpipe _
    _ = sortDesc (dedupFirst (sortDesc (dedupFirst (ex ++ new)))) := by
        rw [dedupFirst_append_covered _ _ hcov]
    _ = sortDesc (dedupFirst (ex ++ new)) := by
        rw [dedupFirst_sortDesc, dedupFirst_eq_self (dedupFirst_pairwise_keys _),
          sortDesc_eq_self (sortedDesc_sortDesc _)]
    _ = append_data (some ex) new true := h1.symm

/-- C3 (code_bug): the very first `append` for a contract (no prior
stored series) saves the new frame unchanged -- the deduplicate branch is
never reached -- so an input containing two rows with the same key
persists both, violating the at-most-one-observation-per-key invariant. -/
theorem append_data_first_append_duplicate_keys :
    obs0116.key = obs0116'.key ∧ obs0116 ≠ obs0116' ∧
      append_data none [obs0116, obs0116'] true = [obs0116, obs0116'] ∧
      ¬ (append_data none [obs0116, obs0116'] true).Pairwise
          (fun a b => a.key ≠ b.key) := by decide

/-- C4 counterexample: the very first `append` for a contract stores the
input in its given order without sorting, so an input listed oldest-first
is persisted unsorted. -/
theorem append_data_first_append_unsorted :
    ¬ SortedDesc (append_data none [obs0116, obs0123] true) := by decide

/-- C4 (amended): every `append` onto an existing stored series persists
a series sorted by `report_date` descending (line 103 re-sorts whether or
not deduplication ran); only the first-append short circuit stores the
input unsorted. -/
theorem append_data_sorted (ex new : List Obs) (d : Bool) :
    SortedDesc (append_data (some ex) new d) := by
  simp only [append_data]
  exact sortedDesc_sortDesc _

/-- Supporting invariant: appending onto an existing series with
deduplicate=true always yields pairwise-distinct keys. -/
theorem append_data_keys_unique (ex new : List Obs) :
    (append_data (some ex) new true).Pairwise (fun a b => a.key ≠ b.key) := by
  have hs : Symmetric (fun a b : Obs => a.key ≠ b.key) := fun _ _ h => Ne.symm h
  simp only [append_data, if_true]
  exact ((sortDesc_perm _).pairwise_iff @hs).mpr (dedupFirst_pairwise_keys _)

/-! ### SeriesWindow: `EEXDataStorage.get_weekly_totals` -/

/-- Stable insertion (ascending by `report_date`). -/
def insertAsc (o : Obs) : List Obs → List Obs
  | [] => [o]
  | x :: xs => if o.report_date ≤ x.report_date then o :: x :: xs else x :: insertAsc o xs

/-- Embedding of `df.sort_values('report_date', ascending=True)`: a
stable ascending sort by `report_date`. -/
def sortAsc : List Obs → List Obs
  | [] => []
  | x :: xs => insertAsc x (sortAsc xs)

/-- Embedding of `pd.Series.unique`: the distinct values in order of
first appearance. -/
def uniqueDates : List ℕ → List ℕ
  | [] => []
  | d :: rest => d :: uniqueDates (rest.filter (fun x => x ≠ d))
termination_by l => l.length
decreasing_by
  simp only [List.length_cons]
  exact Nat.lt_succ_of_le (List.length_filter_le _ _)

/-- Embedding of `EEXDataStorage.get_weekly_totals` (eex_storage.py lines
147-177), applied to the rows loaded for the contract (the `None` branch
for an absent store is outside this function):

* keep only rows with `position_type == 'total'` (line 163);
* sort by `report_date` descending (line 166);
* `unique_dates = df['report_date'].unique()[:weeks]` (line 169);
* keep rows whose date is in `unique_dates` (line 172);
* sort ascending for chronological order (line 175). -/
def get_weekly_totals (df : List Obs) (weeks : ℕ) : List Obs :=
  let df1 := df.filter (fun o => o.position_type = PosType.total)
  let df2 := sortDesc df1
  let unique_dates := (uniqueDates (df2.map Obs.report_date)).take weeks
  let df3 := df2.filter (fun o => o.report_date ∈ unique_dates)
  sortAsc df3

/-- Rows sorted by `report_date` ascending. -/
def SortedAsc (l : List Obs) : Prop :=
  l.Pairwise (fun a b => a.report_date ≤ b.report_date)

theorem insertAsc_perm (o : Obs) (l : List Obs) :
    List.Perm (insertAsc o l) (o :: l) := by
  induction l with
  | nil => exact List.Perm.refl _
  | cons x xs ih =>
    simp only [insertAsc]
    split
    · exact List.Perm.refl _
    · exact (ih.cons x).trans (List.Perm.swap o x xs)

theorem sortAsc_perm (l : List Obs) : List.Perm (sortAsc l) l := by
  induction l with
  | nil => exact List.Perm.refl _
  | cons x xs ih => exact (insertAsc_perm x (sortAsc xs)).trans (ih.cons x)

theorem sortedAsc_insertAsc {o : Obs} {l : List Obs} (h : SortedAsc l) :
    SortedAsc (insertAsc o l) := by
  induction l with
  | nil => simp [insertAsc, SortedAsc]
  | cons x xs ih =>
    simp only [insertAsc]
    split
    · rename_i hle
      refine List.Pairwise.cons ?_ h
      intro b hb
      rcases List.mem_cons.mp hb with rfl | hb
      · exact hle
      · exact le_trans hle (List.rel_of_pairwise_cons h hb)
    · rename_i hgt
      have hlt : x.report_date ≤ o.report_date := le_of_lt (lt_of_not_le hgt)
      refine List.Pairwise.cons ?_ (ih h.of_cons)
      intro b hb
      rcases List.mem_cons.mp ((insertAsc_perm o xs).mem_iff.mp hb) with rfl | hb
      · exact hlt
      · exact List.rel_of_pairwise_cons h hb

theorem sortedAsc_sortAsc (l : List Obs) : SortedAsc (sortAsc l) := by
  induction l with
  | nil => simp [sortAsc, SortedAsc]
  | cons x xs ih => exact sortedAsc_insertAsc ih

theorem uniqueDates_sublist : ∀ (l : List ℕ), List.Sublist (uniqueDates l) l
  | [] => by rw [uniqueDates]
  | d :: rest => by
    rw [uniqueDates]
    exact List.Sublist.cons₂ d
      ((uniqueDates_sublist _).trans (List.filter_sublist _))
termination_by l => l.length
decreasing_by
  simp only [List.length_cons]
  exact Nat.lt_succ_of_le (List.length_filter_le _ _)

theorem mem_uniqueDates : ∀ (l : List ℕ) (x : ℕ), x ∈ uniqueDates l ↔ x ∈ l
  | [], x => by rw [uniqueDates]
  | d :: rest, x => by
    rw [uniqueDates]
    constructor
    · intro h
      rcases List.mem_cons.mp h with rfl | h
      · exact List.mem_cons_self _ _
      · exact List.mem_cons_of_mem _
          (List.mem_of_mem_filter ((mem_uniqueDates _ x).mp h))
    · intro h
      by_cases hx : x = d
      · exact hx ▸ List.mem_cons_self _ _
      · rcases List.mem_cons.mp h with rfl | h
        · exact absurd rfl hx
        · exact List.mem_cons_of_mem _
            ((mem_uniqueDates _ x).mpr (List.mem_filter.mpr ⟨h, decide_eq_true hx⟩))
termination_by l _ => l.length
decreasing_by
  all_goals simp only [List.length_cons]
  all_goals exact Nat.lt_succ_of_le (List.length_filter_le _ _)

theorem uniqueDates_nodup : ∀ (l : List ℕ), (uniqueDates l).Nodup
  | [] => by rw [uniqueDates]; exact List.nodup_nil
  | d :: rest => by
    rw [uniqueDates]
    refine List.Pairwise.cons ?_ (uniqueDates_nodup _)
    intro b hb
    have hbf : b ∈ rest.filter (fun x => x ≠ d) := (mem_uniqueDates _ _).mp hb
    have hbd : b ≠ d := by simpa using List.of_mem_filter hbf
    exact fun h => hbd h.symm
termination_by l => l.length
decreasing_by
  simp only [List.length_cons]
  exact Nat.lt_succ_of_le (List.length_filter_le _ _)

/-- On a descending list, the distinct values are strictly descending. -/
theorem uniqueDates_strictDesc {l : List ℕ}
    (h : l.Pairwise (fun a b => b ≤ a)) :
    (uniqueDates l).Pairwise (fun a b => b < a) := by
  have hle := h.sublist (uniqueDates_sublist l)
  have hne := uniqueDates_nodup l
  exact (hle.and hne).imp fun hab =>
    lt_of_le_of_ne hab.1 (fun hba => hab.2 hba.symm)

/-- On a strictly descending list, membership in the first `n` entries is
membership together with fewer than `n` strictly larger entries. -/
theorem mem_take_strictDesc : ∀ (L : List ℕ),
    L.Pairwise (fun a b => b < a) → ∀ (n d : ℕ),
      d ∈ L.take n ↔ d ∈ L ∧ (L.filter (fun x => d < x)).length < n
  | [], _, n, d => by simp
  | a :: M, hL, n, d => by
    cases n with
    | zero => simp
    | succ n =>
      rw [List.take_succ_cons]
      by_cases hd : d = a
      · subst hd
        have hfil : (d :: M).filter (fun x => d < x) = [] := by
          rw [List.filter_eq_nil_iff]
          intro x hx
          rcases List.mem_cons.mp hx with rfl | hx
          · simp
          · have hxa : x < d := List.rel_of_pairwise_cons hL hx
            simp only [decide_eq_true_eq]
            omega
        constructor
        · intro _
          refine ⟨List.mem_cons_self _ _, ?_⟩
          rw [hfil]
          exact Nat.succ_pos n
        · intro _
          exact List.mem_cons_self _ _
      · constructor
        · intro h
          rcases List.mem_cons.mp h with rfl | h
          · exact absurd rfl hd
          · obtain ⟨hmem, hlen⟩ := (mem_take_strictDesc M hL.of_cons n d).mp h
            have hda : d < a := List.rel_of_pairwise_cons hL hmem
            refine ⟨List.mem_cons_of_mem _ hmem, ?_⟩
            rw [List.filter_cons, if_pos (decide_eq_true hda), List.length_cons]
            exact Nat.succ_lt_succ hlen
        · rintro ⟨hmem, hlen⟩
          rcases List.mem_cons.mp hmem with rfl | hmem
          · exact absurd rfl hd
          · have hda : d < a := List.rel_of_pairwise_cons hL hmem
            rw [List.filter_cons, if_pos (decide_eq_true hda), List.length_cons] at hlen
            exact List.mem_cons_of_mem _
              ((mem_take_strictDesc M hL.of_cons n d).mpr
                ⟨hmem, Nat.lt_of_succ_lt_succ hlen⟩)

/-- Bridge between list-level and finset-level counting of distinct
values satisfying a predicate. -/
theorem length_filter_toFinset_card {l : List ℕ} (h : l.Nodup)
    (p : ℕ → Prop) [DecidablePred p] :
    (l.filter (fun x => decide (p x))).length = (l.toFinset.filter p).card := by
  rw [← List.toFinset_card_of_nodup (h.filter _), List.toFinset_filter]
  congr 1
  exact Finset.filter_congr (fun x _ => by simp)

/-- C9 (amended, the position type fixed to `total`): `get_weekly_totals`
keeps only `total` rows, retains exactly the observations whose
`report_date` is among the `weeks` most recent distinct dates of those
rows (all of them, without error, when fewer than `weeks` exist), returns
them sorted ascending by `report_date`, and the result covers exactly
`min weeks (number of distinct available dates)` distinct dates. -/
theorem get_weekly_totals_spec (df : List Obs) (weeks : ℕ) :
    SortedAsc (get_weekly_totals df weeks) ∧
    (∀ o ∈ get_weekly_totals df weeks, o.position_type = PosType.total) ∧
    List.Perm (get_weekly_totals df weeks)
      ((df.filter (fun o => o.position_type = PosType.total)).filter (fun o =>
        (((df.filter (fun o => o.position_type = PosType.total)).map
          Obs.report_date).toFinset.filter
            (fun x => o.report_date < x)).card < weeks)) ∧
    ((get_weekly_totals df weeks).map Obs.report_date).toFinset.card =
      min weeks
        ((df.filter (fun o => o.position_type = PosType.total)).map
          Obs.report_date).toFinset.card := by
  set f := df.filter (fun o => o.position_type = PosType.total) with hf
  set s := sortDesc f with hs
  set L := uniqueDates (s.map Obs.report_date) with hL
  set dates := L.take weeks with hdates
  have hres : get_weekly_totals df weeks =
      sortAsc (s.filter (fun o => o.report_date ∈ dates)) := rfl
  have hsorted : SortedDesc s := sortedDesc_sortDesc f
  have hLdesc : L.Pairwise (fun a b => b < a) :=
    uniqueDates_strictDesc (List.pairwise_map.mpr hsorted)
  have hLnodup : L.Nodup := uniqueDates_nodup _
  have hmemL : ∀ x : ℕ, x ∈ L ↔ x ∈ f.map Obs.report_date := by
    intro x
    rw [hL, mem_uniqueDates]
    exact ((sortDesc_perm f).map Obs.report_date).mem_iff
  have hLfin : L.toFinset = (f.map Obs.report_date).toFinset := by
    ext x
    simp only [List.mem_toFinset]
    exact hmemL x
  have hdmem : ∀ d : ℕ, d ∈ dates ↔ d ∈ L ∧
      ((f.map Obs.report_date).toFinset.filter (fun x => d < x)).card < weeks := by
    intro d
    rw [hdates, mem_take_strictDesc L hLdesc weeks d,
      length_filter_toFinset_card hLnodup (fun x => d < x), hLfin]
  refine ⟨?_, ?_, ?_, ?_⟩
  · rw [hres]; exact sortedAsc_sortAsc _
  · intro o ho
    rw [hres] at ho
    have h1 : o ∈ s.filter (fun o => o.report_date ∈ dates) :=
      (sortAsc_perm _).mem_iff.mp ho
    have h2 : o ∈ f := mem_sortDesc.mp (List.mem_of_mem_filter h1)
    have h3 := List.of_mem_filter h2
    exact of_decide_eq_true h3
  · rw [hres]
    have hcongr :
        f.filter (fun o => o.report_date ∈ dates) =
          f.filter (fun o =>
            ((f.map Obs.report_date).toFinset.filter
              (fun x => o.report_date < x)).card < weeks) := by
      apply List.filter_congr
      intro o ho
      apply decide_eq_decide.mpr
      constructor
      · intro hd
        exact ((hdmem o.report_date).mp hd).2
      · intro hc
        exact (hdmem o.report_date).mpr
          ⟨(hmemL o.report_date).mpr (List.mem_map_of_mem Obs.report_date ho), hc⟩
    exact (sortAsc_perm _).trans
      (((sortDesc_perm f).filter _).trans (by rw [hcongr]))
  · have hset :
        ((sortAsc (s.filter (fun o => o.report_date ∈ dates))).map
          Obs.report_date).toFinset = dates.toFinset := by
      ext x
      simp only [List.mem_toFinset, List.mem_map]
      constructor
      · rintro ⟨o, ho, rfl⟩
        have h1 : o ∈ s.filter (fun o => o.report_date ∈ dates) :=
          (sortAsc_perm _).mem_iff.mp ho
        have h2 := List.of_mem_filter h1
        exact of_decide_eq_true h2
      · intro hx
        have hxL : x ∈ L := List.take_subset _ _ hx
        obtain ⟨o, ho, rfl⟩ := List.mem_map.mp ((hmemL x).mp hxL)
        refine ⟨o, ?_, rfl⟩
        exact (sortAsc_perm _).mem_iff.mpr
          (List.mem_filter.mpr ⟨mem_sortDesc.mpr ho, decide_eq_true hx⟩)
    rw [hres, hset]
    have hdn : dates.Nodup := hLnodup.sublist (List.take_sublist _ _)
    rw [List.toFinset_card_of_nodup hdn, hdates, List.length_take,
      ← List.toFinset_card_of_nodup hLnodup, hLfin]

/-- C9 counterexample: the window operation is not parameterized by
position type -- `get_weekly_totals` hard-codes `'total'` -- so the claim
instantiated at position_type `other` fails: the window over a series
holding one `total` row returns that `total` row. -/
theorem get_weekly_totals_not_type_parametric :
    ¬ ∀ (pt : PosType) (df : List Obs) (weeks : ℕ),
        ∀ o ∈ get_weekly_totals df weeks, o.position_type = pt := by
  intro h
  have heval : get_weekly_totals [obs0116] 1 = [obs0116] := by
    simp [get_weekly_totals, sortDesc, insertDesc, sortAsc, insertAsc,
      uniqueDates, obs0116]
  have hmem : obs0116 ∈ get_weekly_totals [obs0116] 1 := by
    rw [heval]; exact List.mem_cons_self _ _
  exact absurd (h PosType.other [obs0116] 1 obs0116 hmem) (by decide)

/-! ### Cell values and numeric cleaning (`EEXCoTParser._clean_number`) -/

/-- A raw spreadsheet cell as surfaced by `pd.read_excel`: blank (NaN),
a number (an Excel double), a string, or a datetime. -/
inductive Cell where
  | blank
  | num (q : ℚ)
  | text (s : String)
  | date (t : ℕ)
  deriving DecidableEq, Repr

def digitChar (d : ℕ) : Char := Char.ofNat (48 + d)

def charVal (c : Char) : ℕ := c.toNat - 48

/-- Big-endian decimal value of a digit-character run. -/
def natOfDigitChars (cs : List Char) : ℕ :=
  cs.foldl (fun acc c => acc * 10 + charVal c) 0

/-- Split a character run at the first `'.'`. -/
def splitDot : List Char → List Char × Option (List Char)
  | [] => ([], none)
  | c :: rest =>
    if c = '.' then ([], some rest)
    else
      let (a, b) := splitDot rest
      (c :: a, b)

/-- The decimal core of Python's `float(str)` on an unsigned literal:
digits with an optional fractional part (at least one digit overall).
Exponent, infinity/nan and underscore forms of the Python grammar are
not modelled; they never occur in the encoded archives. -/
def parseUnsignedFloat (cs : List Char) : Option ℚ :=
  let (ip, fr) := splitDot cs
  match fr with
  | none =>
    if ip ≠ [] ∧ ip.all Char.isDigit then
      some ((natOfDigitChars ip : ℕ) : ℚ)
    else none
  | some fp =>
    if (ip ≠ [] ∨ fp ≠ []) ∧ ip.all Char.isDigit ∧ fp.all Char.isDigit then
      some ((natOfDigitChars ip : ℚ) + (natOfDigitChars fp : ℚ) / 10 ^ fp.length)
    else none

/-- Python `float(str)` (decimal core, with optional sign) on a
character run. -/
def parseFloatChars : List Char → Option ℚ
  | [] => none
  | c :: rest =>
    if c = '-' then (parseUnsignedFloat rest).map (fun q => -q)
    else if c = '+' then parseUnsignedFloat rest
    else parseUnsignedFloat (c :: rest)

/-- Python `float(str)` (decimal core, with optional sign). -/
def parseFloat (s : String) : Option ℚ :=
  parseFloatChars s.toList

/-- Python `float(value)` on a raw cell: numbers convert to themselves,
strings are parsed as float literals, anything else raises
(ValueError/TypeError), modelled as `none`. -/
def pythonFloat : Cell → Option ℚ
  | Cell.num q => some q
  | Cell.text s => parseFloat s
  | _ => none

/-- Embedding of `EEXCoTParser._clean_number` (eex_parser.py lines
195-202): NaN cells become 0.0 (`pd.isna`), then `float(value)` is
attempted and ValueError/TypeError fall back to 0.0. -/
def _clean_number (value : Cell) : ℚ :=
  if value = Cell.blank then 0
  else
    match pythonFloat value with
    | some q => q
    | none => 0

/-- C8: numeric cleaning is total (never an error): a blank cell or a
cell Python `float()` rejects yields 0.0, and a cell `float()` accepts
yields its float value. -/
theorem clean_number_spec (value : Cell) :
    (value = Cell.blank → _clean_number value = 0) ∧
    (value ≠ Cell.blank → pythonFloat value = none → _clean_number value = 0) ∧
    (∀ q : ℚ, value ≠ Cell.blank → pythonFloat value = some q →
      _clean_number value = q) := by
  refine ⟨?_, ?_, ?_⟩
  · intro h
    simp [_clean_number, h]
  · intro h hn
    simp [_clean_number, h, hn]
  · intro q h hq
    simp [_clean_number, h, hq]

/-- Witness for C8 at concrete cells: a malformed text cell is coerced
to 0.0 and a numeric cell keeps its value. -/
theorem clean_number_spec_witness :
    _clean_number (Cell.text "n/a") = 0 ∧ _clean_number (Cell.num 5) = 5 :=
  ⟨(clean_number_spec (Cell.text "n/a")).2.1 (by decide) rfl,
   (clean_number_spec (Cell.num 5)).2.2 5 (by decide) rfl⟩

/-! ### The fixed-layout grid decoder (`EEXCoTParser`) -/

/-- A parsed sheet as a two-dimensional array of raw cells
(`pd.read_excel(..., header=None)`): finite dimensions, untyped cells. -/
structure Grid where
  nrows : ℕ
  ncols : ℕ
  cell : ℕ → ℕ → Cell

/-- `df.iloc[r, c]`: the raw cell, or an IndexError (`none`) outside the
sheet's bounds. -/
def Grid.iloc (g : Grid) (r c : ℕ) : Option Cell :=
  if r < g.nrows ∧ c < g.ncols then some (g.cell r c) else none

/-- Parse an ISO `YYYY-MM-DD` date text into the timestamp scalar
`y*10000 + m*100 + d` (order-isomorphic to the calendar order for
calendar-valid fields). -/
def parseDateText (s : String) : Option ℕ :=
  match s.toList with
  | [y1, y2, y3, y4, h1, m1, m2, h2, d1, d2] =>
    if h1 = '-' ∧ h2 = '-' ∧ [y1, y2, y3, y4, m1, m2, d1, d2].all Char.isDigit then
      some (natOfDigitChars [y1, y2, y3, y4] * 10000 +
        natOfDigitChars [m1, m2] * 100 + natOfDigitChars [d1, d2])
    else none
  | _ => none

/-- `pd.to_datetime` on a raw cell, as used on the report_date header
cell: a datetime cell passes through, a text cell is parsed (ISO form),
anything else fails (the numeric epoch branch of `to_datetime` and
non-ISO text formats are not modelled; every claim proved about the
decoder is conditional on a successful decode). -/
def to_datetime : Cell → Option ℕ
  | Cell.date t => some t
  | Cell.text s => parseDateText s
  | _ => none

/-- The decoded report header (`EEXCoTParser.extract_metadata`): eight
fixed cells at rows 0-7, column 1.  `report_date` is parsed with
`pd.to_datetime` (and re-serialized in ISO form in the source; here kept
as the parsed timestamp scalar); the other fields pass through
untyped. -/
structure Metadata where
  trading_venue : Cell
  venue_identifier : Cell
  report_date : ℕ
  publication_datetime : Cell
  contract_name : Cell
  contract_code : Cell
  report_status : Cell
  report_type : Cell
  deriving DecidableEq, Repr

/-- Embedding of `EEXCoTParser.extract_metadata` (eex_parser.py lines
35-58). -/
def extract_metadata (g : Grid) : Option Metadata := do
  let tv ← g.iloc 0 1
  let vi ← g.iloc 1 1
  let rdc ← g.iloc 2 1
  let rd ← to_datetime rdc
  let pdt ← g.iloc 3 1
  let cn ← g.iloc 4 1
  let cc ← g.iloc 5 1
  let rs ← g.iloc 6 1
  let rt ← g.iloc 7 1
  pure { trading_venue := tv, venue_identifier := vi, report_date := rd,
         publication_datetime := pdt, contract_name := cn,
         contract_code := cc, report_status := rs, report_type := rt }

/-- One row of the decoder's output frame (the merged positions /
changes / percentages record).  `contract_code` is the raw header cell,
passed through untyped exactly as in the source. -/
structure PObs where
  report_date : ℕ
  contract_code : Cell
  category : Category
  position_type : PosType
  long : ℚ
  short : ℚ
  net : ℚ
  long_change : ℚ
  short_change : ℚ
  net_change : ℚ
  long_pct : ℚ
  short_pct : ℚ
  deriving DecidableEq, Repr

/-- The five category column pairs (eex_parser.py lines 80-86):
category name, long column, short column. -/
def categories : List (Category × ℕ × ℕ) :=
  [(Category.investment_firms, 3, 4),
   (Category.investment_funds, 5, 6),
   (Category.other_financial, 7, 8),
   (Category.commercial, 9, 10),
   (Category.compliance_operators, 11, 12)]

/-- Rows 11-13: numbers of positions (lines 91-95). -/
def position_types : List (ℕ × PosType) :=
  [(11, PosType.risk_reducing), (12, PosType.other), (13, PosType.total)]

/-- Rows 14-16: position changes (lines 114-118). -/
def change_types : List (ℕ × PosType) :=
  [(14, PosType.risk_reducing), (15, PosType.other), (16, PosType.total)]

/-- Rows 17-19: percentages of open interest (lines 137-141). -/
def pct_types : List (ℕ × PosType) :=
  [(17, PosType.risk_reducing), (18, PosType.other), (19, PosType.total)]

/-- An entry of the `positions` list (lines 102-110). -/
structure PosEntry where
  report_date : ℕ
  contract_code : Cell
  category : Category
  position_type : PosType
  long : ℚ
  short : ℚ
  net : ℚ
  deriving DecidableEq, Repr

/-- An entry of the `changes` list (lines 125-133). -/
structure ChangeEntry where
  report_date : ℕ
  contract_code : Cell
  category : Category
  position_type : PosType
  long_change : ℚ
  short_change : ℚ
  net_change : ℚ
  deriving DecidableEq, Repr

/-- An entry of the `percentages` list (lines 148-155). -/
structure PctEntry where
  report_date : ℕ
  contract_code : Cell
  category : Category
  position_type : PosType
  long_pct : ℚ
  short_pct : ℚ
  deriving DecidableEq, Repr

/-- The positions double loop (lines 97-110): for each position-type row
and each category column pair, read the long/short cells and build an
entry with `net` computed as `long - short` at construction. -/
def parsePositionRows (g : Grid) (md : Metadata) : Option (List PosEntry) :=
  (position_types.mapM (fun (rp : ℕ × PosType) =>
    categories.mapM (fun (cat : Category × ℕ × ℕ) => do
      let long_val ← g.iloc rp.1 cat.2.1
      let short_val ← g.iloc rp.1 cat.2.2
      pure { report_date := md.report_date, contract_code := md.contract_code,
             category := cat.1, position_type := rp.2,
             long := _clean_number long_val,
             short := _clean_number short_val,
             net := _clean_number long_val - _clean_number short_val
             : PosEntry }))).map List.flatten

/-- The changes double loop (lines 120-133), `net_change` computed as
`long_change - short_change` at construction. -/
def parseChangeRows (g : Grid) (md : Metadata) : Option (List ChangeEntry) :=
  (change_types.mapM (fun (rp : ℕ × PosType) =>
    categories.mapM (fun (cat : Category × ℕ × ℕ) => do
      let long_val ← g.iloc rp.1 cat.2.1
      let short_val ← g.iloc rp.1 cat.2.2
      pure { report_date := md.report_date, contract_code := md.contract_code,
             category := cat.1, position_type := rp.2,
             long_change := _clean_number long_val,
             short_change := _clean_number short_val,
             net_change := _clean_number long_val - _clean_number short_val
             : ChangeEntry }))).map List.flatten

/-- The percentages double loop (lines 143-155). -/
def parsePctRows (g : Grid) (md : Metadata) : Option (List PctEntry) :=
  (pct_types.mapM (fun (rp : ℕ × PosType) =>
    categories.mapM (fun (cat : Category × ℕ × ℕ) => do
      let long_val ← g.iloc rp.1 cat.2.1
      let short_val ← g.iloc rp.1 cat.2.2
      pure { report_date := md.report_date, contract_code := md.contract_code,
             category := cat.1, position_type := rp.2,
             long_pct := _clean_number long_val,
             short_pct := _clean_number short_val
             : PctEntry }))).map List.flatten

def PosEntry.mkey (p : PosEntry) : ℕ × Cell × Category × PosType :=
  (p.report_date, p.contract_code, p.category, p.position_type)

def ChangeEntry.mkey (c : ChangeEntry) : ℕ × Cell × Category × PosType :=
  (c.report_date, c.contract_code, c.category, c.position_type)

def PctEntry.mkey (c : PctEntry) : ℕ × Cell × Category × PosType :=
  (c.report_date, c.contract_code, c.category, c.position_type)

/-- Embedding of `EEXCoTParser.parse_positions` (eex_parser.py lines
60-172): extract metadata, build the positions/changes/percentages
lists, and join the three on (report_date, contract_code, category,
position_type) with `how='left'`.  The three lists enumerate exactly the
same 15 keys, so every left-join probe finds exactly one partner;
`find?` models that probe (the unmatched branch, which pandas would fill
with NaN, is unreachable). -/
def parse_positions (g : Grid) : Option (List PObs) := do
  let md ← extract_metadata g
  let positions ← parsePositionRows g md
  let changes ← parseChangeRows g md
  let percentages ← parsePctRows g md
  positions.mapM (fun p => do
    let c ← changes.find? (fun c => c.mkey = p.mkey)
    let pc ← percentages.find? (fun pc => pc.mkey = p.mkey)
    pure { report_date := p.report_date, contract_code := p.contract_code,
           category := p.category, position_type := p.position_type,
           long := p.long, short := p.short, net := p.net,
           long_change := c.long_change, short_change := c.short_change,
           net_change := c.net_change,
           long_pct := pc.long_pct, short_pct := pc.short_pct })

/-- Inverting a successful `Option` `mapM`: each input maps to the
corresponding output. -/
theorem mapM_some_forall2 {α β : Type} (f : α → Option β) :
    ∀ (l : List α) (out : List β), l.mapM f = some out →
      List.Forall₂ (fun a b => f a = some b) l out
  | [], out, h => by
    rw [List.mapM_nil] at h
    cases h
    exact List.Forall₂.nil
  | a :: t, out, h => by
    rw [List.mapM_cons] at h
    cases hfa : f a with
    | none => rw [hfa] at h; simp at h
    | some b =>
      rw [hfa] at h
      cases hmt : t.mapM f with
      | none => rw [hmt] at h; simp at h
      | some bs =>
        rw [hmt] at h
        simp at h
        subst h
        exact List.Forall₂.cons hfa (mapM_some_forall2 f t bs hmt)

theorem forall2_mem_right {α β : Type} {R : α → β → Prop} :
    ∀ {l : List α} {out : List β}, List.Forall₂ R l out →
      ∀ b ∈ out, ∃ a ∈ l, R a b := by
  intro l out h
  induction h with
  | nil => intro b hb; exact absurd hb (List.not_mem_nil b)
  | cons h1 _ ih =>
    intro b hb
    rcases List.mem_cons.mp hb with rfl | hb
    · exact ⟨_, List.mem_cons_self _ _, h1⟩
    · obtain ⟨a, ha, hr⟩ := ih b hb
      exact ⟨a, List.mem_cons_of_mem _ ha, hr⟩

theorem forall2_map_eq {α β γ : Type} {f : α → γ} {g : β → γ} :
    ∀ {l : List α} {out : List β},
      List.Forall₂ (fun a b => g b = f a) l out → out.map g = l.map f := by
  intro l out h
  induction h with
  | nil => rfl
  | cons h1 _ ih => simp only [List.map_cons, h1, ih]

/-- Every entry of the positions block has `net = long - short` by
construction. -/
theorem parsePositionRows_net {g : Grid} {md : Metadata}
    {pos : List PosEntry} (h : parsePositionRows g md = some pos) :
    ∀ p ∈ pos, p.net = p.long - p.short := by
  rw [parsePositionRows, Option.map_eq_some'] at h
  obtain ⟨blocks, hblocks, rfl⟩ := h
  intro p hp
  rw [List.mem_flatten] at hp
  obtain ⟨blk, hblk, hpblk⟩ := hp
  obtain ⟨rp, _, hblkEq⟩ :=
    forall2_mem_right (mapM_some_forall2 _ _ _ hblocks) blk hblk
  obtain ⟨cat, _, hpEq⟩ :=
    forall2_mem_right (mapM_some_forall2 _ _ _ hblkEq) p hpblk
  simp only [bind, Option.bind_eq_some, Option.pure_def, Option.some.injEq] at hpEq
  obtain ⟨lv, _, sv, _, rfl⟩ := hpEq
  rfl

/-- Every entry of the changes block has
`net_change = long_change - short_change` by construction. -/
theorem parseChangeRows_net_change {g : Grid} {md : Metadata}
    {chg : List ChangeEntry} (h : parseChangeRows g md = some chg) :
    ∀ c ∈ chg, c.net_change = c.long_change - c.short_change := by
  rw [parseChangeRows, Option.map_eq_some'] at h
  obtain ⟨blocks, hblocks, rfl⟩ := h
  intro c hc
  rw [List.mem_flatten] at hc
  obtain ⟨blk, hblk, hcblk⟩ := hc
  obtain ⟨rp, _, hblkEq⟩ :=
    forall2_mem_right (mapM_some_forall2 _ _ _ hblocks) blk hblk
  obtain ⟨cat, _, hcEq⟩ :=
    forall2_mem_right (mapM_some_forall2 _ _ _ hblkEq) c hcblk
  simp only [bind, Option.bind_eq_some, Option.pure_def, Option.some.injEq] at hcEq
  obtain ⟨lv, _, sv, _, rfl⟩ := hcEq
  rfl

/-- C7: every observation produced by a successful single-sheet decode
satisfies `net = long - short` and
`net_change = long_change - short_change`; both are computed by the
decoder at construction time, not read from the grid. -/
theorem parse_positions_net (g : Grid) (rows : List PObs)
    (h : parse_positions g = some rows) :
    ∀ o ∈ rows, o.net = o.long - o.short ∧
      o.net_change = o.long_change - o.short_change := by
  rw [parse_positions] at h
  simp only [bind, Option.bind_eq_some] at h
  obtain ⟨md, hmd, pos, hpos, chg, hchg, pct, hpct, hmap⟩ := h
  intro o ho
  obtain ⟨p, hp, hpo⟩ :=
    forall2_mem_right (mapM_some_forall2 _ _ _ hmap) o ho
  simp only [bind, Option.bind_eq_some, Option.pure_def, Option.some.injEq] at hpo
  obtain ⟨c, hc, pc, hpc2, rfl⟩ := hpo
  constructor
  · exact parsePositionRows_net hpos p hp
  · exact parseChangeRows_net_change hchg c (List.mem_of_find?_eq_some hc)

def PObs.cpair (o : PObs) : Category × PosType := (o.category, o.position_type)

def PosEntry.cpair (p : PosEntry) : Category × PosType :=
  (p.category, p.position_type)

/-- The (category, position_type) pairs of a successful decode, in row
order: the row-major enumeration of the 3 position types over the 5
categories. -/
theorem parse_positions_pairs (g : Grid) (rows : List PObs)
    (h : parse_positions g = some rows) :
    rows.map PObs.cpair =
      (position_types.map (fun rp =>
        categories.map (fun c => (c.1, rp.2)))).flatten := by
  rw [parse_positions] at h
  simp only [bind, Option.bind_eq_some] at h
  obtain ⟨md, hmd, pos, hpos, chg, hchg, pct, hpct, hmap⟩ := h
  have h1 : rows.map PObs.cpair = pos.map PosEntry.cpair := by
    apply forall2_map_eq
    refine (mapM_some_forall2 _ _ _ hmap).imp ?_
    intro p o hpo
    simp only [bind, Option.bind_eq_some, Option.pure_def, Option.some.injEq] at hpo
    obtain ⟨c, hc, pc, hpc2, rfl⟩ := hpo
    rfl
  rw [parsePositionRows, Option.map_eq_some'] at hpos
  obtain ⟨blocks, hblocks, rfl⟩ := hpos
  have h2 : blocks.map (List.map PosEntry.cpair) =
      position_types.map (fun rp => categories.map (fun c => (c.1, rp.2))) := by
    apply forall2_map_eq
    refine (mapM_some_forall2 _ _ _ hblocks).imp ?_
    intro rp blk hblk
    apply forall2_map_eq
    refine (mapM_some_forall2 _ _ _ hblk).imp ?_
    intro cat e he
    simp only [bind, Option.bind_eq_some, Option.pure_def, Option.some.injEq] at he
    obtain ⟨lv, _, sv, _, rfl⟩ := he
    rfl
  rw [h1, List.map_flatten, h2]

theorem length_filter_map {α β : Type} (f : α → β) (l : List α) (p : β → Bool) :
    (l.filter (fun a => p (f a))).length = ((l.map f).filter p).length := by
  induction l with
  | nil => rfl
  | cons a t ih =>
    by_cases h : p (f a) = true
    · simp [List.filter_cons, List.map_cons, h, ih]
    · simp [List.filter_cons, List.map_cons, h, ih]

/-- C10: a successful single-sheet decode yields exactly 15 position
observations -- one for each of the 5 fixed categories paired with each
of the 3 position types, each pair exactly once -- regardless of the
numeric contents of the grid cells. -/
theorem parse_positions_shape (g : Grid) (rows : List PObs)
    (h : parse_positions g = some rows) :
    rows.length = 15 ∧ ∀ (cat : Category) (pt : PosType),
      (rows.filter (fun o =>
        o.category = cat ∧ o.position_type = pt)).length = 1 := by
  have hpairs := parse_positions_pairs g rows h
  constructor
  · have hlen := congrArg List.length hpairs
    rw [List.length_map] at hlen
    exact hlen.trans (by rfl)
  · intro cat pt
    have hfe : rows.filter (fun o =>
          o.category = cat ∧ o.position_type = pt) =
        rows.filter (fun o =>
          (fun x => decide (x = (cat, pt))) (PObs.cpair o)) := by
      apply List.filter_congr
      intro o _
      apply decide_eq_decide.mpr
      simp [PObs.cpair, Prod.ext_iff]
    rw [hfe, length_filter_map PObs.cpair rows (fun x => decide (x = (cat, pt))),
      hpairs]
    cases cat <;> cases pt <;> rfl

/-- A minimal grid on which the decode succeeds: 20 rows, 13 columns, a
datetime cell in the report_date header slot, the number 1 elsewhere. -/
def gridW : Grid :=
  { nrows := 20, ncols := 13,
    cell := fun r c => if r = 2 ∧ c = 1 then Cell.date 20260123 else Cell.num 1 }

/-- Witness for C7 on a concrete successfully decoded grid. -/
theorem parse_positions_net_witness :
    ((parse_positions gridW).getD []).all
      (fun o => decide (o.net = o.long - o.short ∧
        o.net_change = o.long_change - o.short_change)) = true := by
  obtain ⟨rows, hr⟩ : ∃ rows, parse_positions gridW = some rows := ⟨_, rfl⟩
  have hnet := parse_positions_net gridW rows hr
  rw [hr, Option.getD_some, List.all_eq_true]
  intro o ho
  exact decide_eq_true (hnet o ho)

/-- Witness for C10 on a concrete successfully decoded grid. -/
theorem parse_positions_shape_witness :
    (parse_positions gridW).map List.length = some 15 := by
  obtain ⟨rows, hr⟩ : ∃ rows, parse_positions gridW = some rows := ⟨_, rfl⟩
  rw [hr, Option.map_some']
  exact congrArg some ((parse_positions_shape gridW rows hr).1)

/-- Witness for C9 at a concrete stored series: the single total row is
in the window, and the spec applied to it yields its position type. -/
theorem get_weekly_totals_spec_witness :
    obs0116.position_type = PosType.total := by
  have heval : get_weekly_totals [obs0116] 1 = [obs0116] := by
    simp [get_weekly_totals, sortDesc, insertDesc, sortAsc, insertAsc,
      uniqueDates, obs0116]
  have hmem : obs0116 ∈ get_weekly_totals [obs0116] 1 := by
    rw [heval]
    exact List.mem_cons_self _ _
  exact (get_weekly_totals_spec [obs0116] 1).2.1 obs0116 hmem

/-! ### CSV persistence (`EEXDataStorage.save_history` / `load_history`) -/

/-- Big-endian decimal rendering of a natural number (the digit run
`str(n)` produces). -/
def natToChars (n : ℕ) : List Char :=
  if n = 0 then ['0'] else ((Nat.digits 10 n).map digitChar).reverse

/-- `n` rendered as exactly `w` digits, zero-padded on the left. -/
def padChars (w n : ℕ) : List Char :=
  List.replicate (w - (natToChars n).length) '0' ++ natToChars n

theorem charVal_digitChar {d : ℕ} (h : d < 10) : charVal (digitChar d) = d := by
  interval_cases d <;> decide

theorem digitChar_isDigit {d : ℕ} (h : d < 10) : (digitChar d).isDigit = true := by
  interval_cases d <;> decide

theorem isDigit_ne_signs {c : Char} (h : c.isDigit = true) :
    c ≠ '-' ∧ c ≠ '+' ∧ c ≠ '.' := by
  refine ⟨?_, ?_, ?_⟩ <;> intro heq <;> rw [heq] at h <;> exact absurd h (by decide)

theorem natOfDigitChars_append (cs : List Char) (c : Char) :
    natOfDigitChars (cs ++ [c]) = natOfDigitChars cs * 10 + charVal c := by
  unfold natOfDigitChars
  rw [List.foldl_append]
  rfl

theorem natOfDigitChars_rev_digits : ∀ (ds : List ℕ), (∀ d ∈ ds, d < 10) →
    natOfDigitChars ((ds.map digitChar).reverse) = Nat.ofDigits 10 ds
  | [], _ => rfl
  | d :: ds, h => by
    rw [List.map_cons, List.reverse_cons, natOfDigitChars_append,
      natOfDigitChars_rev_digits ds (fun x hx => h x (List.mem_cons_of_mem _ hx)),
      charVal_digitChar (h d (List.mem_cons_self _ _)), Nat.ofDigits_cons]
    ring

theorem natOfDigitChars_natToChars (n : ℕ) :
    natOfDigitChars (natToChars n) = n := by
  unfold natToChars
  by_cases h : n = 0
  · subst h
    decide
  · rw [if_neg h,
      natOfDigitChars_rev_digits _ (fun d hd => Nat.digits_lt_base (by norm_num) hd),
      Nat.ofDigits_digits]

theorem natOfDigitChars_replicate_zero (k : ℕ) (cs : List Char) :
    natOfDigitChars (List.replicate k '0' ++ cs) = natOfDigitChars cs := by
  induction k with
  | zero => rfl
  | succ k ih =>
    rw [List.replicate_succ, List.cons_append]
    exact ih

theorem natOfDigitChars_padChars (w n : ℕ) :
    natOfDigitChars (padChars w n) = n := by
  rw [padChars, natOfDigitChars_replicate_zero, natOfDigitChars_natToChars]

theorem natToChars_ne_nil (n : ℕ) : natToChars n ≠ [] := by
  unfold natToChars
  by_cases h : n = 0
  · simp [h]
  · rw [if_neg h]
    simp only [ne_eq, List.reverse_eq_nil_iff, List.map_eq_nil_iff]
    exact Nat.digits_ne_nil_iff_ne_zero.mpr h

theorem natToChars_isDigit (n : ℕ) : ∀ c ∈ natToChars n, c.isDigit = true := by
  unfold natToChars
  by_cases h : n = 0
  · rw [if_pos h]
    intro c hc
    rcases List.mem_cons.mp hc with rfl | hc
    · decide
    · exact absurd hc (List.not_mem_nil c)
  · rw [if_neg h]
    intro c hc
    rw [List.mem_reverse] at hc
    obtain ⟨d, hd, rfl⟩ := List.mem_map.mp hc
    exact digitChar_isDigit (Nat.digits_lt_base (by norm_num) hd)

theorem padChars_isDigit (w n : ℕ) : ∀ c ∈ padChars w n, c.isDigit = true := by
  intro c hc
  rcases List.mem_append.mp hc with hc | hc
  · rw [List.eq_of_mem_replicate hc]
    decide
  · exact natToChars_isDigit n c hc

theorem digits_length_le {n w : ℕ} (h : n < 10 ^ w) :
    (Nat.digits 10 n).length ≤ w := by
  by_cases h0 : n = 0
  · simp [h0]
  · by_contra hlt
    push_neg at hlt
    have h1 : 10 ^ (Nat.digits 10 n).length ≤ 10 * n :=
      Nat.base_pow_length_digits_le 10 n (by norm_num) h0
    have h2 : 10 ^ (w + 1) ≤ 10 ^ (Nat.digits 10 n).length :=
      Nat.pow_le_pow_right (by norm_num) hlt
    have h3 := le_trans h2 h1
    rw [pow_succ] at h3
    omega

theorem natToChars_length_le {n w : ℕ} (hw : 0 < w) (h : n < 10 ^ w) :
    (natToChars n).length ≤ w := by
  unfold natToChars
  by_cases h0 : n = 0
  · rw [if_pos h0]
    simpa using hw
  · rw [if_neg h0, List.length_reverse, List.length_map]
    exact digits_length_le h

theorem padChars_length {w n : ℕ} (hw : 0 < w) (h : n < 10 ^ w) :
    (padChars w n).length = w := by
  rw [padChars, List.length_append, List.length_replicate]
  have := natToChars_length_le hw h
  omega

theorem splitDot_no_dot : ∀ {a : List Char}, '.' ∉ a → splitDot a = (a, none)
  | [], _ => rfl
  | c :: a', h => by
    have hc : ¬ c = '.' := fun heq => h (heq ▸ List.mem_cons_self _ _)
    simp only [splitDot, if_neg hc,
      splitDot_no_dot (fun hm => h (List.mem_cons_of_mem _ hm))]

theorem splitDot_append_dot : ∀ {a : List Char} (b : List Char), '.' ∉ a →
    splitDot (a ++ '.' :: b) = (a, some b)
  | [], b, _ => by simp [splitDot]
  | c :: a', b, h => by
    have hc : ¬ c = '.' := fun heq => h (heq ▸ List.mem_cons_self _ _)
    simp only [List.cons_append, splitDot, if_neg hc, List.append_eq,
      splitDot_append_dot b (fun hm => h (List.mem_cons_of_mem _ hm))]

/-- The unsigned character payload of a float rendered by
`to_csv`/`str`: integer digits, `'.'`, and the exact fractional digits.
The fractional width used is the denominator (any width `w` with
`den ∣ 10 ^ w` renders exactly; the shortest-repr digits the C library
actually prints parse back to the same double, which is the round-trip
property used here). -/
def encodeFloatChars (q : ℚ) : List Char :=
  natToChars (q.num.natAbs * 10 ^ q.den / q.den / 10 ^ q.den) ++
    '.' :: padChars q.den (q.num.natAbs * 10 ^ q.den / q.den % 10 ^ q.den)

/-- A float cell as written by `to_csv`: optional sign, then the
unsigned decimal payload. -/
def encodeFloat (q : ℚ) : String :=
  String.mk ((if q < 0 then ['-'] else []) ++ encodeFloatChars q)

/-- The value domain of Python floats: every IEEE double is a dyadic
rational, and every dyadic rational has a finite decimal expansion --
equivalently its denominator divides `10 ^ denominator`. -/
def FiniteDec (q : ℚ) : Prop := (q.den : ℕ) ∣ 10 ^ q.den

instance (q : ℚ) : Decidable (FiniteDec q) := by
  unfold FiniteDec
  infer_instance

theorem parseUnsignedFloat_encode (ip fp k : ℕ) (hk : 0 < k) (hfp : fp < 10 ^ k) :
    parseUnsignedFloat (natToChars ip ++ '.' :: padChars k fp) =
      some ((ip : ℚ) + (fp : ℚ) / 10 ^ k) := by
  have hdots : '.' ∉ natToChars ip := fun hm =>
    (isDigit_ne_signs (natToChars_isDigit ip _ hm)).2.2 rfl
  unfold parseUnsignedFloat
  rw [splitDot_append_dot _ hdots]
  dsimp only
  rw [if_pos ⟨Or.inl (natToChars_ne_nil ip),
    List.all_eq_true.mpr (natToChars_isDigit ip),
    List.all_eq_true.mpr (padChars_isDigit k fp)⟩]
  rw [natOfDigitChars_natToChars, natOfDigitChars_padChars,
    padChars_length hk hfp]

theorem parseUnsignedFloat_encodeFloatChars (q : ℚ) (h : FiniteDec q) :
    parseUnsignedFloat (encodeFloatChars q) =
      some ((q.num.natAbs : ℚ) / (q.den : ℚ)) := by
  have hden : 0 < q.den := q.pos
  have h10 : (0 : ℚ) < 10 ^ q.den := by positivity
  have h10ne : (10 : ℚ) ^ q.den ≠ 0 := ne_of_gt h10
  have hdenne : ((q.den : ℕ) : ℚ) ≠ 0 := by positivity
  have hfp : q.num.natAbs * 10 ^ q.den / q.den % 10 ^ q.den < 10 ^ q.den :=
    Nat.mod_lt _ (by positivity)
  unfold encodeFloatChars
  rw [parseUnsignedFloat_encode _ _ _ hden hfp]
  congr 1
  have hdvd : (q.den : ℕ) ∣ q.num.natAbs * 10 ^ q.den := h.mul_left _
  have hsceq : q.num.natAbs * 10 ^ q.den / q.den * q.den =
      q.num.natAbs * 10 ^ q.den := Nat.div_mul_cancel hdvd
  have hdm : q.num.natAbs * 10 ^ q.den / q.den / 10 ^ q.den * 10 ^ q.den +
      q.num.natAbs * 10 ^ q.den / q.den % 10 ^ q.den =
        q.num.natAbs * 10 ^ q.den / q.den :=
    Nat.div_add_mod' _ _
  have cast1 : ((q.num.natAbs * 10 ^ q.den / q.den : ℕ) : ℚ) =
      ((q.num.natAbs * 10 ^ q.den / q.den / 10 ^ q.den : ℕ) : ℚ) * 10 ^ q.den +
        ((q.num.natAbs * 10 ^ q.den / q.den % 10 ^ q.den : ℕ) : ℚ) := by
    exact_mod_cast congrArg (Nat.cast (R := ℚ)) hdm.symm
  have cast2 : ((q.num.natAbs * 10 ^ q.den / q.den : ℕ) : ℚ) * ((q.den : ℕ) : ℚ) =
      ((q.num.natAbs : ℕ) : ℚ) * 10 ^ q.den := by
    exact_mod_cast congrArg (Nat.cast (R := ℚ)) hsceq
  calc ((q.num.natAbs * 10 ^ q.den / q.den / 10 ^ q.den : ℕ) : ℚ) +
        ((q.num.natAbs * 10 ^ q.den / q.den % 10 ^ q.den : ℕ) : ℚ) / 10 ^ q.den
      = (((q.num.natAbs * 10 ^ q.den / q.den / 10 ^ q.den : ℕ) : ℚ) * 10 ^ q.den +
          ((q.num.natAbs * 10 ^ q.den / q.den % 10 ^ q.den : ℕ) : ℚ)) / 10 ^ q.den := by
        rw [add_div, mul_div_cancel_right₀ _ h10ne]
    _ = ((q.num.natAbs * 10 ^ q.den / q.den : ℕ) : ℚ) / 10 ^ q.den := by
        rw [← cast1]
    _ = ((q.num.natAbs : ℕ) : ℚ) / ((q.den : ℕ) : ℚ) :=
        (div_eq_div_iff h10ne hdenne).mpr cast2

theorem parseFloat_encodeFloat (q : ℚ) (h : FiniteDec q) :
    parseFloat (encodeFloat q) = some q := by
  have hun := parseUnsignedFloat_encodeFloatChars q h
  have hpf : parseFloat (encodeFloat q) =
      parseFloatChars ((if q < 0 then ['-'] else []) ++ encodeFloatChars q) := rfl
  obtain ⟨c, cs, hcons⟩ : ∃ c cs, natToChars
      (q.num.natAbs * 10 ^ q.den / q.den / 10 ^ q.den) = c :: cs :=
    List.exists_cons_of_ne_nil (natToChars_ne_nil _)
  have hcdigit : c.isDigit = true := by
    apply natToChars_isDigit _ c
    rw [hcons]
    exact List.mem_cons_self _ _
  have hpayload : encodeFloatChars q = c :: (cs ++ '.' ::
      padChars q.den (q.num.natAbs * 10 ^ q.den / q.den % 10 ^ q.den)) := by
    rw [encodeFloatChars, hcons]
    rfl
  by_cases hq : q < 0
  · rw [hpf, if_pos hq, List.singleton_append, parseFloatChars, if_pos rfl, hun]
    have hnum : q.num < 0 := Rat.num_neg.mpr hq
    have habs : ((q.num.natAbs : ℕ) : ℚ) = -((q.num : ℤ) : ℚ) := by
      rw [Int.cast_natAbs, abs_of_neg hnum]
      push_cast
      ring
    rw [Option.map_some']
    congr 1
    rw [habs, neg_div, neg_neg, Rat.num_div_den]
  · rw [hpf, if_neg hq, List.nil_append, hpayload, parseFloatChars]
    have hsigns := isDigit_ne_signs hcdigit
    rw [if_neg hsigns.1, if_neg hsigns.2.1, ← hpayload, hun]
    have hnum : 0 ≤ q.num := Rat.num_nonneg.mpr (le_of_not_lt hq)
    have habs : ((q.num.natAbs : ℕ) : ℚ) = ((q.num : ℤ) : ℚ) := by
      rw [Int.cast_natAbs, abs_of_nonneg hnum]
    rw [habs, Rat.num_div_den]

theorem length_eq_two {α : Type} : ∀ {l : List α}, l.length = 2 → ∃ a b, l = [a, b]
  | [a, b], _ => ⟨a, b, rfl⟩
  | [], h => by simp at h
  | [_], h => by simp at h
  | _ :: _ :: _ :: _, h => by simp at h

theorem length_eq_four {α : Type} :
    ∀ {l : List α}, l.length = 4 → ∃ a b c d, l = [a, b, c, d]
  | [a, b, c, d], _ => ⟨a, b, c, d, rfl⟩
  | [], h => by simp at h
  | [_], h => by simp at h
  | [_, _], h => by simp at h
  | [_, _, _], h => by simp at h
  | _ :: _ :: _ :: _ :: _ :: _, h => by simp at h

/-- The `to_csv` rendering of a normalized datetime cell: ISO
`YYYY-MM-DD`, with the timestamp scalar `y*10000 + m*100 + d` split back
into its zero-padded fields. -/
def formatDate (t : ℕ) : String :=
  String.mk (padChars 4 (t / 10000) ++
    '-' :: padChars 2 (t % 10000 / 100) ++ '-' :: padChars 2 (t % 100))

theorem parseDateText_formatDate (t : ℕ) (h : t < 10 ^ 8) :
    parseDateText (formatDate t) = some t := by
  have hy : t / 10000 < 10 ^ 4 := by omega
  have hm : t % 10000 / 100 < 10 ^ 2 := by omega
  have hd : t % 100 < 10 ^ 2 := by omega
  obtain ⟨y1, y2, y3, y4, hy4⟩ := length_eq_four (padChars_length (by norm_num) hy)
  obtain ⟨m1, m2, hm2⟩ := length_eq_two (padChars_length (by norm_num) hm)
  obtain ⟨d1, d2, hd2⟩ := length_eq_two (padChars_length (by norm_num) hd)
  have hdig : ∀ c ∈ [y1, y2, y3, y4, m1, m2, d1, d2], c.isDigit = true := by
    intro c hc
    simp only [List.mem_cons, List.not_mem_nil, or_false] at hc
    rcases hc with rfl | rfl | rfl | rfl | rfl | rfl | rfl | rfl
    · exact padChars_isDigit _ _ c (by rw [hy4]; simp)
    · exact padChars_isDigit _ _ c (by rw [hy4]; simp)
    · exact padChars_isDigit _ _ c (by rw [hy4]; simp)
    · exact padChars_isDigit _ _ c (by rw [hy4]; simp)
    · exact padChars_isDigit _ _ c (by rw [hm2]; simp)
    · exact padChars_isDigit _ _ c (by rw [hm2]; simp)
    · exact padChars_isDigit _ _ c (by rw [hd2]; simp)
    · exact padChars_isDigit _ _ c (by rw [hd2]; simp)
  have hlist : (formatDate t).toList =
      [y1, y2, y3, y4, '-', m1, m2, '-', d1, d2] := by
    show padChars 4 (t / 10000) ++
        '-' :: padChars 2 (t % 10000 / 100) ++ '-' :: padChars 2 (t % 100) = _
    rw [hy4, hm2, hd2]
    rfl
  unfold parseDateText
  rw [hlist]
  dsimp only
  rw [if_pos ⟨rfl, rfl, List.all_eq_true.mpr hdig⟩]
  have e1 : natOfDigitChars [y1, y2, y3, y4] = t / 10000 := by
    rw [← hy4, natOfDigitChars_padChars]
  have e2 : natOfDigitChars [m1, m2] = t % 10000 / 100 := by
    rw [← hm2, natOfDigitChars_padChars]
  have e3 : natOfDigitChars [d1, d2] = t % 100 := by
    rw [← hd2, natOfDigitChars_padChars]
  rw [e1, e2, e3]
  congr 1
  omega

/-- The category label stored in the frame (the keys of
`EEXCoTParser.CATEGORIES`). -/
def catName : Category → String
  | Category.investment_firms => "investment_firms"
  | Category.investment_funds => "investment_funds"
  | Category.other_financial => "other_financial"
  | Category.commercial => "commercial"
  | Category.compliance_operators => "compliance_operators"

/-- Recovering the category enum from its stored label. -/
def parseCategory (s : String) : Option Category :=
  if s = "investment_firms" then some Category.investment_firms
  else if s = "investment_funds" then some Category.investment_funds
  else if s = "other_financial" then some Category.other_financial
  else if s = "commercial" then some Category.commercial
  else if s = "compliance_operators" then some Category.compliance_operators
  else none

/-- The position-type label stored in the frame. -/
def ptName : PosType → String
  | PosType.risk_reducing => "risk_reducing"
  | PosType.other => "other"
  | PosType.total => "total"

/-- Recovering the position-type enum from its stored label. -/
def parsePosType (s : String) : Option PosType :=
  if s = "risk_reducing" then some PosType.risk_reducing
  else if s = "other" then some PosType.other
  else if s = "total" then some PosType.total
  else none

theorem parseCategory_catName (c : Category) : parseCategory (catName c) = some c := by
  cases c <;> rfl

theorem parsePosType_ptName (p : PosType) : parsePosType (ptName p) = some p := by
  cases p <;> rfl

/-- The column header `to_csv` writes for the stored frame (the columns
of the merged decoder frame, in order). -/
def headerRow : List String :=
  ["report_date", "contract_code", "category", "position_type", "long",
   "short", "net", "long_change", "short_change", "net_change", "long_pct",
   "short_pct"]

/-- The CSV data line `to_csv` writes for one row: each cell rendered as
text (ISO date, plain strings, float repr). -/
def encodeRow (o : Obs) : List String :=
  [formatDate o.report_date, o.contract_code, catName o.category,
   ptName o.position_type, encodeFloat o.long, encodeFloat o.short,
   encodeFloat o.net, encodeFloat o.long_change, encodeFloat o.short_change,
   encodeFloat o.net_change, encodeFloat o.long_pct, encodeFloat o.short_pct]

/-- Reading one data line back: `read_csv` re-types the numeric columns
as floats and keeps the label columns textual, and `load_history` then
re-parses the report_date column with `pd.to_datetime`. -/
def decodeRow (cells : List String) : Option Obs :=
  match cells with
  | [rd, cc, cat, pt, l, s, n, lc, sc, nc, lp, sp] => do
    let rd ← parseDateText rd
    let cat ← parseCategory cat
    let pt ← parsePosType pt
    let l ← parseFloat l
    let s ← parseFloat s
    let n ← parseFloat n
    let lc ← parseFloat lc
    let sc ← parseFloat sc
    let nc ← parseFloat nc
    let lp ← parseFloat lp
    let sp ← parseFloat sp
    pure { report_date := rd, contract_code := cc, category := cat,
           position_type := pt, long := l, short := s, net := n,
           long_change := lc, short_change := sc, net_change := nc,
           long_pct := lp, short_pct := sp }
  | _ => none

/-- Embedding of `EEXDataStorage.save_history` (eex_storage.py lines
57-67): `df.to_csv(file_path, index=False)` writes the header line and
one encoded line per row, directly into the target file. -/
def save_history (df : List Obs) : List (List String) :=
  headerRow :: df.map encodeRow

/-- Embedding of `EEXDataStorage.load_history` (lines 37-55) applied to
an existing file: `pd.read_csv` plus the `to_datetime` conversion of
`report_date`.  `none` models the absent-file result and unreadable
content (read_csv raises `EmptyDataError` on an empty file). -/
def load_history (file : List (List String)) : Option (List Obs) :=
  match file with
  | [] => none
  | h :: rows => if h = headerRow then rows.mapM decodeRow else none

/-- The value domain of a real stored frame: the timestamp scalar fits
the ISO rendering and every numeric cell is a float (dyadic rational,
hence a finite decimal). -/
def WellFormedObs (o : Obs) : Prop :=
  o.report_date < 10 ^ 8 ∧ FiniteDec o.long ∧ FiniteDec o.short ∧
  FiniteDec o.net ∧ FiniteDec o.long_change ∧ FiniteDec o.short_change ∧
  FiniteDec o.net_change ∧ FiniteDec o.long_pct ∧ FiniteDec o.short_pct

instance (o : Obs) : Decidable (WellFormedObs o) := by
  unfold WellFormedObs
  infer_instance

theorem decodeRow_encodeRow (o : Obs) (h : WellFormedObs o) :
    decodeRow (encodeRow o) = some o := by
  obtain ⟨hrd, h1, h2, h3, h4, h5, h6, h7, h8⟩ := h
  rw [encodeRow, decodeRow]
  simp only [parseDateText_formatDate _ hrd, parseCategory_catName,
    parsePosType_ptName, parseFloat_encodeFloat _ h1,
    parseFloat_encodeFloat _ h2, parseFloat_encodeFloat _ h3,
    parseFloat_encodeFloat _ h4, parseFloat_encodeFloat _ h5,
    parseFloat_encodeFloat _ h6, parseFloat_encodeFloat _ h7,
    parseFloat_encodeFloat _ h8, Option.bind_some, Option.pure_def]
  rfl

/-- C5: the persisted archive round-trips: saving a series with
`save_history` (`to_csv`) and re-loading it with `load_history`
(`read_csv` + `to_datetime`) reproduces the series exactly -- in
particular as a set of rows modulo ordering.  The hypothesis is the
value domain of real frames: float (dyadic) numeric cells and an
ISO-renderable timestamp. -/
theorem load_history_save_history (df : List Obs)
    (h : ∀ o ∈ df, WellFormedObs o) :
    load_history (save_history df) = some df := by
  rw [save_history, load_history]
  rw [if_pos rfl]
  induction df with
  | nil => rfl
  | cons o t ih =>
    rw [List.map_cons, List.mapM_cons,
      decodeRow_encodeRow o (h o (List.mem_cons_self _ _)),
      ih (fun x hx => h x (List.mem_cons_of_mem _ hx))]
    rfl

/-- Witness for C5 at a concrete one-row series. -/
theorem load_history_save_history_witness :
    load_history (save_history [obs0116]) = some [obs0116] :=
  load_history_save_history [obs0116] (by decide)

/-- The sequence of file contents visible while `save_history` runs:
`df.to_csv(file_path, index=False)` opens the target path for writing --
truncating it -- and then writes the new content in place, so after `k`
lines have been written a concurrent reader (or a crash) sees the first
`k` lines of the new content.  There is no temporary file and no
rename in the source. -/
def save_history_states (df : List Obs) : List (List (List String)) :=
  (List.range ((save_history df).length + 1)).map
    (fun k => (save_history df).take k)

/-- C6 counterexample: `save_history` is not atomic.  During the write
of a two-line archive the file passes through the truncated empty state,
which is neither the prior archive nor the new one. -/
theorem save_history_not_atomic :
    ¬ ∀ (df : List Obs) (prior : List (List String)),
        ∀ st ∈ save_history_states df, st = prior ∨ st = save_history df := by
  intro h
  have hmem : ([] : List (List String)) ∈ save_history_states [obs0116] := by
    rw [save_history_states]
    exact List.mem_map.mpr ⟨0, List.mem_range.mpr (Nat.succ_pos _), rfl⟩
  rcases h [obs0116] [["stale archive"]] [] hmem with h1 | h1
  · exact absurd h1 (by simp)
  · exact absurd h1 (by simp [save_history])

/-- C6 (amended): `save_history` overwrites the target file directly
(non-atomically): the write passes through the truncated empty file,
every state visible mid-write is a prefix of the new content -- so an
interruption can leave a partially written file in place of the prior
archive -- and an uninterrupted write ends with exactly the new
archive. -/
theorem save_history_direct_write (df : List Obs) :
    ([] : List (List String)) ∈ save_history_states df ∧
    save_history df ∈ save_history_states df ∧
    ∀ st ∈ save_history_states df, ∃ k ≤ (save_history df).length,
      st = (save_history df).take k := by
  refine ⟨?_, ?_, ?_⟩
  · rw [save_history_states]
    exact List.mem_map.mpr ⟨0, List.mem_range.mpr (Nat.succ_pos _), rfl⟩
  · rw [save_history_states]
    refine List.mem_map.mpr ⟨(save_history df).length,
      List.mem_range.mpr (Nat.lt_succ_self _), ?_⟩
    exact List.take_length _
  · intro st hst
    rw [save_history_states] at hst
    obtain ⟨k, hk, rfl⟩ := List.mem_map.mp hst
    exact ⟨k, Nat.lt_succ_iff.mp (List.mem_range.mp hk), rfl⟩

/-- Witness for C6's amended statement at a concrete series: the
completed write is among the visible states. -/
theorem save_history_direct_write_witness :
    save_history [obs0116] ∈ save_history_states [obs0116] :=
  (save_history_direct_write [obs0116]).2.1
